import Mathlib

/-!
Verification of the ffCropper video-trimming tool (src/ffCropper.py).

The development shallowly embeds the program over lists of characters
(Python strings), an explicit clock value (datetime.now()), and an
environment record of oracles for the filesystem and subprocess effects.
Every definition is translated from the Python source; the doc comment of
each definition names the source lines it embeds.

Conventions:
- Python strings are List Char.
- Python os.path functions are embedded with POSIX semantics (sep is the
  slash character), matching the behaviour documented in posixpath.
- str.isdigit and int() are embedded for ASCII digit characters, the only
  characters the HHMMSS format involves.
-/

/-- Boolean substring test: embeds the Python expression
"pat in s" on strings (contiguous substring containment). -/
def containsSub (pat : List Char) : List Char → Bool
  | [] => pat.isEmpty
  | c :: cs => pat.isPrefixOf (c :: cs) || containsSub pat cs

/-- Python str.split(sep) for a one-character separator: splits on every
occurrence of sep and keeps empty pieces, so the result is always
nonempty. -/
def pySplit (sep : Char) : List Char → List (List Char)
  | [] => [[]]
  | c :: cs =>
    let r := pySplit sep cs
    if c = sep then [] :: r
    else
      match r with
      | [] => [[c]]
      | h :: t => (c :: h) :: t

/-- Joins pieces with a one-character separator; embeds Python
sep.join(pieces). -/
def intercal (sep : Char) : List (List Char) → List Char
  | [] => []
  | [x] => x
  | x :: y :: t => x ++ sep :: intercal sep (y :: t)

/-- Python str.rstrip(c) for a single character. -/
def dropTrailing (c : Char) (l : List Char) : List Char :=
  (l.reverse.dropWhile (fun d => d = c)).reverse

/-- Index of the last occurrence of a character, embedding Python
str.rfind for a found character (none when absent, where rfind gives -1). -/
def lastIndexOf (c : Char) (l : List Char) : Option Nat :=
  match l.reverse.findIdx? (fun d => d = c) with
  | none => none
  | some j => some (l.length - 1 - j)

/-- One step of the posixpath.normpath component loop (the body of the
for-comp-in-comps loop of CPython posixpath.normpath). initSlashes is
nonzero exactly when the path is absolute. -/
def npStep (initSlashes : Nat) (acc : List (List Char)) (comp : List Char) :
    List (List Char) :=
  if comp = [] ∨ comp = ['.'] then acc
  else if comp ≠ ['.', '.'] ∨ (initSlashes = 0 ∧ acc = []) ∨
      (acc ≠ [] ∧ acc.getLast? = some ['.', '.']) then acc ++ [comp]
  else acc.dropLast

/-- The component-processing body of posixpath.normpath for a given
leading-slash count: process components, join, and return the dot path
when everything vanished. -/
def normpathCore (initSlashes : Nat) (p : List Char) : List Char :=
  let comps := pySplit '/' p
  let newComps := comps.foldl (npStep initSlashes) []
  let joined := List.replicate initSlashes '/' ++ intercal '/' newComps
  if joined = [] then ['.'] else joined

/-- The leading-slash count of posixpath.normpath: 1 for an absolute
path, except 2 for the special double-slash root. -/
def npInitSlashes (p : List Char) : Nat :=
  if p.take 1 = ['/'] then
    (if p.take 2 = ['/', '/'] ∧ p.take 3 ≠ ['/', '/', '/'] then 2 else 1)
  else 0

/-- posixpath.normpath: collapse repeated separators, drop single-dot
components, resolve double-dot components where possible, keep the
special double-slash root, and strip trailing separators. Embeds the
CPython implementation of posixpath.normpath, which ffCropper.py calls as
os.path.normpath (lines 34 and 53). -/
def normpath (p : List Char) : List Char :=
  if p = [] then ['.']
  else normpathCore (npInitSlashes p) p

/-- os.path.basename (POSIX): the part after the last separator. -/
def pyBasename (p : List Char) : List Char :=
  (pySplit '/' p).getLastD []

/-- os.path.splitext applied to a basename (no separator inside): splits
at the last dot unless every character before it is a dot, following
CPython genericpath._splitext. ffCropper.py applies it to
source_basename (line 45). -/
def pySplitext (b : List Char) : List Char × List Char :=
  match lastIndexOf '.' b with
  | none => (b, [])
  | some i =>
    if (b.take i).all (fun c => c = '.') then (b, [])
    else (b.take i, b.drop i)

/-- os.path.dirname (POSIX): everything before the last separator, with
trailing separators stripped unless the result is all separators. -/
def pyDirname (p : List Char) : List Char :=
  match lastIndexOf '/' p with
  | none => []
  | some i =>
    let head := p.take (i + 1)
    if head.all (fun c => c = '/') then head else dropTrailing '/' head

/-- os.path.join (POSIX) for two arguments. -/
def pyJoin (a b : List Char) : List Char :=
  if b.head? = some '/' then b
  else if a = [] ∨ a.getLast? = some '/' then a ++ b
  else a ++ '/' :: b

/-- Fuelled left-to-right non-overlapping replacement; with fuel at least
the length of the subject it embeds Python str.replace(pat, rep) for a
nonempty pattern (the only use in the program has the 11-character
pattern). -/
def replaceAllFuel : Nat → List Char → List Char → List Char → List Char
  | 0, _, _, s => s
  | _ + 1, _, _, [] => []
  | f + 1, pat, rep, c :: cs =>
    if pat ≠ [] ∧ pat.isPrefixOf (c :: cs) then
      rep ++ replaceAllFuel f pat rep ((c :: cs).drop pat.length)
    else c :: replaceAllFuel f pat rep cs

/-- Python str.replace(pat, rep) for a nonempty pattern. -/
def replaceAll (pat rep s : List Char) : List Char :=
  replaceAllFuel s.length pat rep s

/-- The literal placeholder token recognised in output patterns
(ffCropper.py line 36). -/
def tsToken : List Char := ("[timestamp]").toList

/-- A wall-clock value as produced by datetime.now(). -/
structure PyDateTime where
  year : Nat
  month : Nat
  day : Nat
  hour : Nat
  minute : Nat
  second : Nat
  microsecond : Nat

/-- Two-digit zero-padded decimal rendering (strftime field of width 2). -/
def pad2 (n : Nat) : List Char := [Nat.digitChar (n / 10 % 10), Nat.digitChar (n % 10)]

/-- Four-digit zero-padded decimal rendering (strftime %Y for years in
1000..9999). -/
def pad4 (n : Nat) : List Char :=
  [Nat.digitChar (n / 1000 % 10), Nat.digitChar (n / 100 % 10),
   Nat.digitChar (n / 10 % 10), Nat.digitChar (n % 10)]

/-- Six-digit zero-padded decimal rendering (strftime %f). -/
def pad6 (n : Nat) : List Char :=
  [Nat.digitChar (n / 100000 % 10), Nat.digitChar (n / 10000 % 10),
   Nat.digitChar (n / 1000 % 10), Nat.digitChar (n / 100 % 10),
   Nat.digitChar (n / 10 % 10), Nat.digitChar (n % 10)]

/-- strftime with the program's format (ffCropper.py lines 38 and 47)
without the truncation: YYYYMMDD underscore HHMMSS then the 6-digit
microsecond field; 21 characters. -/
def strftimeFull (t : PyDateTime) : List Char :=
  pad4 t.year ++ pad2 t.month ++ pad2 t.day ++
    '_' :: (pad2 t.hour ++ pad2 t.minute ++ pad2 t.second ++ pad6 t.microsecond)

/-- strftime for the date-and-time part only: YYYYMMDD underscore HHMMSS,
15 characters, no sub-second field. -/
def strftimeNoSub (t : PyDateTime) : List Char :=
  pad4 t.year ++ pad2 t.month ++ pad2 t.day ++
    '_' :: (pad2 t.hour ++ pad2 t.minute ++ pad2 t.second)

/-- The generated timestamp value substituted into output paths:
datetime.now().strftime of YmdHMSf truncated to 19 characters, i.e. the
date-time part followed by the first 4 digits of the microsecond field
(ffCropper.py lines 38 and 47). -/
def tsString (t : PyDateTime) : List Char :=
  (strftimeFull t).take 19

/-- Python str.isdigit for ASCII digit strings: false on the empty
string, true iff every character is a (decimal) digit. -/
def pyIsdigit (s : List Char) : Bool :=
  !s.isEmpty && s.all Char.isDigit

/-- Python int() on a string of ASCII digits. -/
def strToNat (s : List Char) : Nat :=
  s.foldl (fun a c => a * 10 + (c.toNat - ('0').toNat)) 0

/-- parse_timestamp (ffCropper.py lines 16-29): a 6-digit HHMMSS string
is converted to seconds; a ValueError (the InvalidTimestamp error of the
spec) is raised when the string is not exactly 6 digits or a field is out
of range. -/
def parse_timestamp (ts : List Char) : Except Unit Nat :=
  if pyIsdigit ts = false ∨ ts.length ≠ 6 then .error ()
  else if strToNat (ts.take 2) > 23 ∨ strToNat ((ts.drop 2).take 2) > 59 ∨
      strToNat ((ts.drop 4).take 2) > 59 then .error ()
  else .ok (strToNat (ts.take 2) * 3600 + strToNat ((ts.drop 2).take 2) * 60 +
    strToNat ((ts.drop 4).take 2))

/-- The substitution phase of format_output_filename (ffCropper.py lines
31-39): normalize the path, then replace every occurrence of the
placeholder token by the generated timestamp when the token occurs. -/
def resolveSubst (t1 : PyDateTime) (outputPath : List Char) : List Char :=
  let p1 := normpath outputPath
  if containsSub tsToken p1 then replaceAll tsToken (tsString t1) p1 else p1

/-- The directory-target test of format_output_filename (ffCropper.py
line 42): an isdir oracle models os.path.isdir; on POSIX os.sep is the
slash, so the first two endswith disjuncts of the source coincide. -/
def dirTarget (isdir : List Char → Bool) (p2 : List Char) : Bool :=
  isdir p2 || (p2.getLast? == some '/') || (p2.getLast? == some '/') ||
    (p2.getLast? == some '\\')

/-- format_output_filename (ffCropper.py lines 31-56): substitute the
placeholder, then, when the result is an existing directory or ends with
a separator, join it with a stem-timestamp-extension filename built from
the source basename; finally normalize. t1 and t2 are the two separate
datetime.now() calls (lines 38 and 47). -/
def format_output_filename (isdir : List Char → Bool) (t1 t2 : PyDateTime)
    (outputPath sourcePath : List Char) : List Char :=
  let p2 := resolveSubst t1 outputPath
  let p3 :=
    if dirTarget isdir p2 then
      let base := pyBasename sourcePath
      let se := pySplitext base
      pyJoin p2 (se.1 ++ '-' :: (tsString t2 ++ se.2))
    else p2
  normpath p3

/-- Python str() of a nonnegative integer. -/
def natStr (n : Nat) : List Char := Nat.toDigits 10 n

/-- Python str() of an integer. -/
def intStr (i : Int) : List Char :=
  if i < 0 then '-' :: natStr i.natAbs else natStr i.natAbs

/-- Outcome of a subprocess.run call: process exit code, or failure to
launch the process at all (an OSError such as FileNotFoundError). -/
inductive ExecOutcome
  | exit (code : Int)
  | launchFail
  deriving DecidableEq

/-- Exceptions process_video can raise, one constructor per distinct
raise site (the spec's error taxonomy): missing source (line 62), bad IN
timestamp (line 67), bad OUT timestamp (line 72), non-positive range
(line 77), os.makedirs failure at the unguarded call (line 85), and a
subprocess launch failure that escapes the except clause (line 128). -/
inductive PyErr
  | sourceNotFound
  | invalidInTimestamp
  | invalidOutTimestamp
  | invalidRange
  | osError
  | execLaunch
  deriving DecidableEq

/-- Observable actions of process_video: a subprocess.run invocation with
its argv and outcome, a directory creation, the ffmpeg-python probe, and
the ffmpeg-python trim run with its seek offset, duration, stream-copy
flag, overwrite flag, and output path. -/
inductive PEvent
  | ran (argv : List (List Char)) (outcome : ExecOutcome)
  | madeDir (d : List Char)
  | pyProbe (src : List Char)
  | pyRun (src : List Char) (ss : Int) (t : Int) (copy : Bool) (overwrite : Bool)
      (out : List Char)
  deriving DecidableEq

/-- The effect oracles process_video consults: filesystem queries, the
two wall-clock reads, the subprocess runner, directory creation success,
availability of the ffmpeg-python binding (module import at lines 10-14),
and the binding's probe and run outcomes. -/
structure Env where
  pathExists : List Char → Bool
  isdir : List Char → Bool
  now1 : PyDateTime
  now2 : PyDateTime
  run : List (List Char) → ExecOutcome
  makedirsOk : List Char → Bool
  havePython : Bool
  pyProbeOk : List Char → Bool
  pyRunOk : Bool

/-- Argv of the ffmpeg availability probe inside process_video
(ffCropper.py line 90); the command name is the hard-coded literal. -/
def probeArgv : List (List Char) := [("ffmpeg").toList, ("-version").toList]

/-- Argv of the trim command (ffCropper.py lines 117-125); the command
name is the hard-coded literal, the seek offset and duration are rendered
with str(), stream copy and overwrite are fixed flags. -/
def trimCmd (source : List Char) (ss dur : Int) (outPath : List Char) :
    List (List Char) :=
  [("ffmpeg").toList, ("-i").toList, source, ("-ss").toList, intStr ss,
   ("-t").toList, intStr dur, ("-c").toList, ("copy").toList, ("-y").toList,
   outPath]

/-- The ffmpeg-python fallback block (ffCropper.py lines 135-172): when
the binding is importable, probe the source first (returning False if the
probe fails), then run the equivalent seek/trim/stream-copy/overwrite
operation; when the binding is absent report failure. All failure paths
return False rather than raising. -/
def pythonFallback (env : Env) (source outputPath : List Char) (ss dur : Int)
    (evs : List PEvent) : Except PyErr Bool × List PEvent :=
  if env.havePython then
    if env.pyProbeOk source then
      ((if env.pyRunOk then .ok true else .ok false),
        evs ++ [.pyProbe source, .pyRun source ss dur true true outputPath])
    else (.ok false, evs ++ [.pyProbe source])
  else (.ok false, evs)

/-- process_video after validation (ffCropper.py lines 79-172): resolve
the output path, create its parent directory (the unguarded makedirs of
line 85 raises on failure), probe for the ffmpeg binary with the
hard-coded command name, bail out when neither ffmpeg nor the binding is
available, then attempt the trim by subprocess; a nonzero exit is caught
as SubprocessError and falls through to the binding, while a launch
failure is an OSError that no except clause catches and so propagates.
The guarded second makedirs of lines 104-112 never acts because the
directory already exists at that point (created at line 85 or
pre-existing), which the dirExistsAfter test reflects. -/
def processVideoRun (env : Env) (source output : List Char) (inS outS : Nat) :
    Except PyErr Bool × List PEvent :=
  let duration : Int := (outS : Int) - (inS : Int)
  let outputPath := format_output_filename env.isdir env.now1 env.now2 output source
  let outputDir := pyDirname outputPath
  let needMk : Bool := !outputDir.isEmpty && !env.pathExists outputDir
  if needMk && !env.makedirsOk outputDir then (.error .osError, [])
  else
    let evs0 : List PEvent := if needMk then [.madeDir outputDir] else []
    let probeOut := env.run probeArgv
    let ffmpegAvailable : Bool := probeOut == .exit 0
    let evs1 := evs0 ++ [.ran probeArgv probeOut]
    if !ffmpegAvailable && !env.havePython then (.ok false, evs1)
    else
      let dirExistsAfter : Bool := env.pathExists outputDir || needMk
      if !outputDir.isEmpty && !dirExistsAfter && !env.makedirsOk outputDir then
        (.ok false, evs1)
      else
        if ffmpegAvailable then
          let cmd := trimCmd source (inS : Int) duration outputPath
          match env.run cmd with
          | .launchFail => (.error .execLaunch, evs1 ++ [.ran cmd .launchFail])
          | .exit code =>
            if code = 0 then (.ok true, evs1 ++ [.ran cmd (.exit 0)])
            else pythonFallback env source outputPath (inS : Int) duration
              (evs1 ++ [.ran cmd (.exit code)])
        else pythonFallback env source outputPath (inS : Int) duration evs1

/-- process_video (ffCropper.py lines 58-172): check the source exists,
parse both timestamps (wrapping failures per direction), reject a
non-positive duration, then run the processing chain. The result is the
returned boolean or the raised exception, paired with the trace of
observable actions. -/
def process_video (env : Env) (source inTs outTs output : List Char) :
    Except PyErr Bool × List PEvent :=
  if env.pathExists source = false then (.error .sourceNotFound, [])
  else
    match parse_timestamp inTs with
    | .error _ => (.error .invalidInTimestamp, [])
    | .ok inS =>
      match parse_timestamp outTs with
      | .error _ => (.error .invalidOutTimestamp, [])
      | .ok outS =>
        if (outS : Int) - (inS : Int) ≤ 0 then (.error .invalidRange, [])
        else processVideoRun env source output inS outS

/-- The command name main invokes for its availability check
(ffCropper.py lines 250-254): the --ffmpeg-path value when supplied and
truthy (a nonempty string), the literal ffmpeg otherwise. -/
def mainFfmpegCmd (ffmpegPath : Option (List Char)) : List Char :=
  match ffmpegPath with
  | some p => if p.isEmpty then ("ffmpeg").toList else p
  | none => ("ffmpeg").toList

/-- Argv of the availability probe in main (ffCropper.py line 259). -/
def mainProbeArgv (ffmpegPath : Option (List Char)) : List (List Char) :=
  [mainFfmpegCmd ffmpegPath, ("-version").toList]

/-- A parsed JSON value as produced by json.load: objects keep their key
order (and json.load never yields duplicate keys). Numbers are restricted
to integers, which suffices for the behaviour under study. -/
inductive JValue
  | null
  | bool (b : Bool)
  | num (n : Int)
  | str (s : List Char)
  | arr (xs : List JValue)
  | obj (kvs : List (List Char × JValue))

/-- The four required job fields, in the order the source lists them
(ffCropper.py lines 187, 192, 207, 208). -/
def requiredKeys : List (List Char) :=
  [("source").toList, ("in").toList, ("out").toList, ("output").toList]

/-- Whether an object value carries a key. -/
def objHasKey (kvs : List (List Char × JValue)) (k : List Char) : Bool :=
  kvs.any (fun kv => kv.1 == k)

/-- Python membership test "k in v" on a JSON value: key lookup for
dicts, substring test for strings, element equality for lists (a string
equals a list element only when that element is the same string), and a
TypeError for the remaining types. -/
def jHasKey : JValue → List Char → Except Unit Bool
  | .obj kvs, k => .ok (objHasKey kvs k)
  | .str s, k => .ok (containsSub k s)
  | .arr xs, k =>
    .ok (xs.any (fun x => match x with | .str s => s == k | _ => false))
  | _, _ => .error ()

/-- Python subscription v[k] with a string key: dict lookup raising
KeyError when absent, TypeError on every other type. -/
def jGet : JValue → List Char → Except Unit JValue
  | .obj kvs, k =>
    match kvs.find? (fun kv => kv.1 == k) with
    | some kv => .ok kv.2
    | none => .error ()
  | _, _ => .error ()

/-- The config normalization of process_batch (ffCropper.py lines
180-193): an array is taken as the candidate list as-is; a dict holding
all four required keys is a single job; any other dict contributes those
of its values that are dicts holding all four required keys, in document
order; every other JSON value yields no candidates. -/
def normalizeConfig : JValue → List JValue
  | .arr xs => xs
  | .obj kvs =>
    if requiredKeys.all (objHasKey kvs) then [.obj kvs]
    else
      kvs.filterMap (fun kv =>
        match kv.2 with
        | .obj kvs2 => if requiredKeys.all (objHasKey kvs2) then some (.obj kvs2) else none
        | _ => none)
  | _ => []

/-- Lazy conjunction of membership tests, embedding the Python expression
all(key in config for key in [...]) at line 207: the generator stops at
the first False, and a TypeError from a test propagates. -/
def checkAllKeys (c : JValue) : List (List Char) → Except Unit Bool
  | [] => .ok true
  | k :: ks =>
    match jHasKey c k with
    | .error e => .error e
    | .ok true => checkAllKeys c ks
    | .ok false => .ok false

/-- The comprehension of line 208 collecting the missing keys, with
exception propagation from the membership tests. -/
def missingKeysE (c : JValue) : List (List Char) → Except Unit (List (List Char))
  | [] => .ok []
  | k :: ks =>
    match jHasKey c k with
    | .error e => .error e
    | .ok b =>
      match missingKeysE c ks with
      | .error e => .error e
      | .ok r => .ok (if b then r else k :: r)

/-- What the loop body of process_batch logs for one candidate
(ffCropper.py lines 204-220): a skip naming the missing keys, a
processing attempt with its boolean result, or a caught exception logged
with the candidate index. -/
inductive BEvent
  | skipped (i : Nat) (missing : List (List Char))
  | jobRun (i : Nat) (ok : Bool)
  | jobError (i : Nat)
  deriving DecidableEq

/-- One iteration of the process_batch loop (ffCropper.py lines 204-220)
on candidate number i, with the engine (process_video together with its
effects) supplied as an oracle from the four extracted field values to a
result or a raised exception: verify the required keys (a TypeError from
the membership test is caught by the except clause), log and skip when
keys are missing, otherwise extract the four fields and run the engine,
catching any exception. -/
def batchStep (engine : JValue → JValue → JValue → JValue → Except Unit Bool)
    (i : Nat) (c : JValue) : BEvent :=
  match checkAllKeys c requiredKeys with
  | .error _ => .jobError i
  | .ok false =>
    match missingKeysE c requiredKeys with
    | .error _ => .jobError i
    | .ok ms => .skipped i ms
  | .ok true =>
    match jGet c (("source").toList) with
    | .error _ => .jobError i
    | .ok vSource =>
      match jGet c (("in").toList) with
      | .error _ => .jobError i
      | .ok vIn =>
        match jGet c (("out").toList) with
        | .error _ => .jobError i
        | .ok vOut =>
          match jGet c (("output").toList) with
          | .error _ => .jobError i
          | .ok vOutput =>
            match engine vSource vIn vOut vOutput with
            | .error _ => .jobError i
            | .ok b => .jobRun i b

/-- The process_batch loop (ffCropper.py lines 199-221): fold over the
candidates from index i with the running success count, collecting the
per-candidate log events. -/
def batchLoop (engine : JValue → JValue → JValue → JValue → Except Unit Bool) :
    Nat → Nat → List JValue → Nat × List BEvent
  | _, cnt, [] => (cnt, [])
  | i, cnt, c :: rest =>
    let e := batchStep engine i c
    let cnt2 := match e with | .jobRun _ true => cnt + 1 | _ => cnt
    let r := batchLoop engine (i + 1) cnt2 rest
    (r.1, e :: r.2)

/-- The per-candidate trace of the loop, written as a direct recursion;
the loop is proved to produce exactly this trace. -/
def batchTrace (engine : JValue → JValue → JValue → JValue → Except Unit Bool) :
    Nat → List JValue → List BEvent
  | _, [] => []
  | i, c :: rest => batchStep engine i c :: batchTrace engine (i + 1) rest

/-- How a process_batch run ends: a JSON parse failure (line 224), the
no-valid-configurations failure (line 196), or a completed loop with its
boolean verdict (line 223). -/
inductive BatchOutcome
  | parseError
  | noValidConfigs
  | completed (success : Bool)
  deriving DecidableEq

/-- The boolean process_batch actually returns for each outcome: False on
parse failure and on zero candidates, the verdict otherwise. -/
def batchReturn : BatchOutcome → Bool
  | .parseError => false
  | .noValidConfigs => false
  | .completed b => b

/-- process_batch (ffCropper.py lines 174-230) over an already-read
document: none models malformed JSON (json.JSONDecodeError), otherwise
the candidates are normalized, an empty candidate list fails with the
no-valid-configs message, and the loop runs from index 0 with success
count 0, succeeding iff the final count is positive. -/
def process_batch (engine : JValue → JValue → JValue → JValue → Except Unit Bool)
    (doc : Option JValue) : BatchOutcome × List BEvent :=
  match doc with
  | none => (.parseError, [])
  | some j =>
    let configs := normalizeConfig j
    if configs.isEmpty then (.noValidConfigs, [])
    else
      let r := batchLoop engine 0 0 configs
      (.completed (decide (0 < r.1)), r.2)

/-- Number of successful jobs recorded in a trace. -/
def traceSuccesses (evs : List BEvent) : Nat :=
  evs.countP (fun e => match e with | .jobRun _ true => true | _ => false)

/-- The exit code of main in batch mode (ffCropper.py lines 294-305,
together with the tool availability gate of lines 256-291 and the config
existence check of line 296): 1 when the tool gate fails, 1 when the
config file is missing, otherwise 0 iff process_batch reported success. -/
def mainExitBatch (toolOk cfgExists : Bool)
    (engine : JValue → JValue → JValue → JValue → Except Unit Bool)
    (doc : Option JValue) : Nat :=
  if !toolOk then 1
  else if !cfgExists then 1
  else if batchReturn (process_batch engine doc).1 then 0 else 1

/-- The exit code of main in single-file mode (ffCropper.py lines
306-334, with the tool gate of lines 256-291): 1 when the tool gate
fails, 1 when --in, --out or --output is missing, otherwise 0 iff
process_video returned True; a False return or a raised exception exits
1. -/
def mainExitSingle (toolOk hasIn hasOut hasOutput : Bool) (env : Env)
    (source inTs outTs output : List Char) : Nat :=
  if !toolOk then 1
  else if !hasIn then 1
  else if !hasOut then 1
  else if !hasOutput then 1
  else
    match (process_video env source inTs outTs output).1 with
    | .ok true => 0
    | .ok false => 1
    | .error _ => 1

/-- The characters the generated timestamp can consist of: decimal digits
and the underscore. -/
def tsAllowed : List Char :=
  ['0', '1', '2', '3', '4', '5', '6', '7', '8', '9', '_']

/-- A fixed clock value used for concrete evaluations. -/
def t0 : PyDateTime := ⟨2026, 1, 1, 12, 34, 56, 0⟩

/-- A benign environment: every path exists, nothing is a directory, all
invocations succeed, the binding is available and works. -/
def env0 : Env where
  pathExists := fun _ => true
  isdir := fun _ => false
  now1 := t0
  now2 := t0
  run := fun _ => .exit 0
  makedirsOk := fun _ => true
  havePython := true
  pyProbeOk := fun _ => true
  pyRunOk := true

/-- An environment where the availability probe succeeds but every other
subprocess invocation exits with status 1; the binding is available and
works. -/
def envW : Env :=
  { env0 with run := fun argv => if argv == probeArgv then .exit 0 else .exit 1 }

/-- An environment where the availability probe succeeds but every other
subprocess invocation fails to launch; the binding is available and
works. -/
def envLF : Env :=
  { env0 with run := fun argv => if argv == probeArgv then .exit 0 else .launchFail }

/-- An isdir oracle recognising exactly the directory of the worked
example. -/
def isdirTmpOut : List Char → Bool := fun p => p == ("/tmp/out").toList

/-- An engine oracle whose every job succeeds. -/
def engT : JValue → JValue → JValue → JValue → Except Unit Bool :=
  fun _ _ _ _ => .ok true

/-- The fields of a well-formed job (all four required fields), as the
spec's single-object example. -/
def goodJobKvs : List (List Char × JValue) :=
  [(("source").toList, .str (("a.mp4").toList)),
   (("in").toList, .str (("000000").toList)),
   (("out").toList, .str (("000010").toList)),
   (("output").toList, .str (("/tmp/a.mp4").toList))]

/-- A well-formed job object (all four required fields). -/
def goodJob : JValue := .obj goodJobKvs

/-- The fields of a job missing exactly the out field. -/
def jobMissingOutKvs : List (List Char × JValue) :=
  [(("source").toList, .str (("a.mp4").toList)),
   (("in").toList, .str (("000000").toList)),
   (("output").toList, .str (("/tmp/a.mp4").toList))]

/-- A job object missing exactly the out field. -/
def jobMissingOut : JValue := .obj jobMissingOutKvs

/-- The entries of a map-of-objects batch document: one complete job, one
incomplete job object, and one non-object entry. -/
def mapDocKvs : List (List Char × JValue) :=
  [(("a").toList, goodJob),
   (("b").toList, .obj [(("source").toList, .str (("x.mp4").toList))]),
   (("c").toList, .num 5)]

/-- A map-of-objects batch document built from those entries. -/
def mapDoc : JValue := .obj mapDocKvs

/-! ## Theorems -/

/-- C1: parse_timestamp succeeds exactly on strings of 6 digit characters
whose HH, MM, SS fields are within 23/59/59, returns
hours times 3600 plus minutes times 60 plus seconds, bounded by 86399, and
fails (InvalidTimestamp) on everything else, in particular on non-digit
strings, strings of length other than 6, and the strings 246000, 236000
and 235960. -/
theorem parse_timestamp_spec (s : List Char) :
    ((parse_timestamp s).isOk = true ↔
      (s.length = 6 ∧ s.all Char.isDigit = true ∧
        strToNat (s.take 2) ≤ 23 ∧ strToNat ((s.drop 2).take 2) ≤ 59 ∧
        strToNat ((s.drop 4).take 2) ≤ 59)) ∧
    (∀ v, parse_timestamp s = .ok v →
      v = strToNat (s.take 2) * 3600 + strToNat ((s.drop 2).take 2) * 60 +
        strToNat ((s.drop 4).take 2) ∧ v ≤ 86399) := by
  constructor
  · unfold parse_timestamp
    split
    · next h =>
      refine iff_of_false Bool.false_ne_true ?_
      rintro ⟨hlen, hdig, -, -, -⟩
      rcases h with h | h
      · have hpd : pyIsdigit s = true := by
          unfold pyIsdigit
          have hne : s.isEmpty = false := by
            cases s with
            | nil => simp at hlen
            | cons a l => rfl
          rw [hne, hdig]; rfl
        rw [hpd] at h; cases h
      · exact h hlen
    · next h =>
      push_neg at h
      obtain ⟨hdig, hlen⟩ := h
      split
      · next hb =>
        refine iff_of_false Bool.false_ne_true ?_
        rintro ⟨-, -, h1, h2, h3⟩
        omega
      · next hb =>
        push_neg at hb
        refine iff_of_true rfl ?_
        have hall : s.all Char.isDigit = true := by
          have hne : pyIsdigit s = true := by
            cases hx : pyIsdigit s with
            | false => exact absurd hx hdig
            | true => rfl
          unfold pyIsdigit at hne
          exact (Bool.and_eq_true _ _ |>.mp hne).2
        exact ⟨hlen, hall, hb.1, hb.2.1, hb.2.2⟩
  · intro v hv
    unfold parse_timestamp at hv
    split at hv
    · cases hv
    · split at hv
      · cases hv
      · next hb =>
        push_neg at hb
        simp only [Except.ok.injEq] at hv
        subst hv
        refine ⟨rfl, ?_⟩
        obtain ⟨h1, h2, h3⟩ := hb
        omega

/-- C1 witness: the largest valid timestamp, 235959, parses to 86399. -/
theorem parse_timestamp_spec_witness :
    (parse_timestamp (("235959").toList)).isOk = true ∧
    (86399 = strToNat ((("235959").toList).take 2) * 3600 +
        strToNat (((("235959").toList).drop 2).take 2) * 60 +
        strToNat (((("235959").toList).drop 4).take 2) ∧ 86399 ≤ 86399) :=
  ⟨(parse_timestamp_spec _).1.mpr (by decide),
   (parse_timestamp_spec _).2 86399 rfl⟩

/-- The fallback block never raises: it only returns booleans. -/
theorem pythonFallback_fst_ok (env : Env) (source outputPath : List Char)
    (ss dur : Int) (evs : List PEvent) :
    (pythonFallback env source outputPath ss dur evs).1 = .ok true ∨
    (pythonFallback env source outputPath ss dur evs).1 = .ok false := by
  unfold pythonFallback
  split
  · split
    · split
      · exact Or.inl rfl
      · exact Or.inr rfl
    · exact Or.inr rfl
  · exact Or.inr rfl

/-- After validation, process_video can return a boolean or raise the
makedirs OSError or the launch OSError, but never the range error. -/
theorem processVideoRun_ne_invalidRange (env : Env) (source output : List Char)
    (inS outS : Nat) :
    (processVideoRun env source output inS outS).1 ≠ .error .invalidRange := by
  unfold processVideoRun
  dsimp only
  split
  · intro h; cases h
  · split
    · intro h; cases h
    · split
      · intro h; cases h
      · split
        · split
          · intro h; cases h
          · split
            · intro h; cases h
            · rcases pythonFallback_fst_ok env source
                (format_output_filename env.isdir env.now1 env.now2 output source)
                (inS : Int) ((outS : Int) - (inS : Int)) _ with h | h <;>
                rw [h] <;> intro hc <;> cases hc
        · rcases pythonFallback_fst_ok env source
            (format_output_filename env.isdir env.now1 env.now2 output source)
            (inS : Int) ((outS : Int) - (inS : Int)) _ with h | h <;>
            rw [h] <;> intro hc <;> cases hc

/-- C5: for an existing source and two successfully parsed timestamps,
process_video raises the InvalidRange error exactly when the out offset
is at most the in offset (duration nonpositive). -/
theorem process_video_invalid_range (env : Env)
    (source inTs outTs output : List Char) (a b : Nat)
    (hsrc : env.pathExists source = true)
    (hin : parse_timestamp inTs = .ok a) (hout : parse_timestamp outTs = .ok b) :
    (process_video env source inTs outTs output).1 = .error .invalidRange ↔ b ≤ a := by
  unfold process_video
  rw [hsrc, hin, hout]
  simp only [Bool.true_eq_false, if_false]
  split
  · next h =>
    refine iff_of_true rfl ?_
    omega
  · next h =>
    refine iff_of_false (processVideoRun_ne_invalidRange env source output a b) ?_
    omega

/-- C5 witness: in 120000 with out 110000 raises InvalidRange. -/
theorem process_video_invalid_range_witness :
    (process_video env0 (("v.mp4").toList) (("120000").toList)
      (("110000").toList) (("o.mp4").toList)).1 = .error .invalidRange :=
  (process_video_invalid_range env0 (("v.mp4").toList) (("120000").toList)
    (("110000").toList) (("o.mp4").toList) 43200 39600 rfl rfl rfl).mpr (by decide)

/-- On an object, the lazy key conjunction never raises and agrees with
the boolean conjunction over the key list. -/
theorem checkAllKeys_obj (kvs : List (List Char × JValue)) :
    ∀ ks : List (List Char), checkAllKeys (.obj kvs) ks = .ok (ks.all (objHasKey kvs))
  | [] => rfl
  | k :: ks => by
    unfold checkAllKeys
    simp only [jHasKey]
    cases h : objHasKey kvs k with
    | false => simp [h]
    | true => simp [h, checkAllKeys_obj kvs ks]

/-- On an object, the missing-key comprehension never raises and returns
the keys the object lacks, in order. -/
theorem missingKeysE_obj (kvs : List (List Char × JValue)) :
    ∀ ks : List (List Char),
      missingKeysE (.obj kvs) ks = .ok (ks.filter (fun k => !objHasKey kvs k))
  | [] => rfl
  | k :: ks => by
    unfold missingKeysE
    simp only [jHasKey]
    rw [missingKeysE_obj kvs ks]
    cases h : objHasKey kvs k with
    | false => simp [List.filter_cons, h]
    | true => simp [List.filter_cons, h]

/-- The loop's event list is the per-candidate trace. -/
theorem batchLoop_snd (engine : JValue → JValue → JValue → JValue → Except Unit Bool) :
    ∀ (cs : List JValue) (i cnt : Nat),
      (batchLoop engine i cnt cs).2 = batchTrace engine i cs
  | [], _, _ => rfl
  | c :: rest, i, cnt => by
    unfold batchLoop batchTrace
    simp only [batchLoop_snd engine rest]

/-- The loop's final counter is the starting counter plus the number of
successful jobs in the trace. -/
theorem batchLoop_fst (engine : JValue → JValue → JValue → JValue → Except Unit Bool) :
    ∀ (cs : List JValue) (i cnt : Nat),
      (batchLoop engine i cnt cs).1 = cnt + traceSuccesses (batchTrace engine i cs)
  | [], _, _ => by simp [batchLoop, batchTrace, traceSuccesses]
  | c :: rest, i, cnt => by
    unfold batchLoop batchTrace
    dsimp only
    rw [batchLoop_fst engine rest]
    unfold traceSuccesses
    rw [List.countP_cons]
    cases h : batchStep engine i c with
    | skipped j m => simp [h, traceSuccesses]
    | jobError j => simp [h, traceSuccesses]
    | jobRun j ok =>
      cases ok with
      | false => simp [h, traceSuccesses]
      | true => simp [h, traceSuccesses]; omega

/-- Each candidate contributes exactly one trace event. -/
theorem batchTrace_length (engine : JValue → JValue → JValue → JValue → Except Unit Bool) :
    ∀ (cs : List JValue) (i : Nat), (batchTrace engine i cs).length = cs.length
  | [], _ => rfl
  | c :: rest, i => by
    unfold batchTrace
    simp [batchTrace_length engine rest]

/-- Every trace event is the step of some candidate. -/
theorem batchTrace_mem (engine : JValue → JValue → JValue → JValue → Except Unit Bool) :
    ∀ (cs : List JValue) (i : Nat) (e : BEvent), e ∈ batchTrace engine i cs →
      ∃ j c, c ∈ cs ∧ e = batchStep engine j c := by
  intro cs
  induction cs with
  | nil => intro i e h; cases h
  | cons c rest ih =>
    intro i e h
    unfold batchTrace at h
    rcases List.mem_cons.mp h with h | h
    · exact ⟨i, c, List.mem_cons_self c rest, h⟩
    · obtain ⟨j, c2, hc2, he⟩ := ih (i + 1) e h
      exact ⟨j, c2, List.mem_cons_of_mem c hc2, he⟩

/-- A skip event can only arise from a candidate whose key check
returned False without raising. -/
theorem batchStep_skipped_checkAllKeys
    (engine : JValue → JValue → JValue → JValue → Except Unit Bool)
    (j : Nat) (c : JValue) (i : Nat) (M : List (List Char))
    (h : batchStep engine j c = .skipped i M) :
    checkAllKeys c requiredKeys = .ok false := by
  unfold batchStep at h
  split at h
  · cases h
  · assumption
  · split at h
    · cases h
    · split at h
      · cases h
      · split at h
        · cases h
        · split at h
          · cases h
          · split at h
            · cases h
            · cases h

/-- A candidate holding all four keys is never skipped. -/
theorem batchStep_ne_skipped_of_all
    (engine : JValue → JValue → JValue → JValue → Except Unit Bool)
    (j : Nat) (kvs : List (List Char × JValue))
    (hall : requiredKeys.all (objHasKey kvs) = true)
    (i : Nat) (M : List (List Char)) :
    batchStep engine j (.obj kvs) ≠ .skipped i M := by
  intro h
  have := batchStep_skipped_checkAllKeys engine j _ i M h
  rw [checkAllKeys_obj kvs requiredKeys, hall] at this
  cases this

/-- C6: process_batch reports success exactly when at least one job in
its trace succeeded, and main exits 0 exactly when its mode's run
succeeded (batch: tool gate passed, config present, batch success;
single: tool gate passed, all arguments present, process_video returned
True), 1 otherwise. -/
theorem batch_success_and_exit_codes
    (engine : JValue → JValue → JValue → JValue → Except Unit Bool)
    (doc : Option JValue) (toolOk cfgExists hasIn hasOut hasOutput : Bool)
    (env : Env) (source inTs outTs output : List Char) :
    (batchReturn (process_batch engine doc).1 = true ↔
      0 < traceSuccesses (process_batch engine doc).2) ∧
    (mainExitBatch toolOk cfgExists engine doc = 0 ↔
      (toolOk = true ∧ cfgExists = true ∧
        batchReturn (process_batch engine doc).1 = true)) ∧
    (mainExitSingle toolOk hasIn hasOut hasOutput env source inTs outTs output = 0 ↔
      (toolOk = true ∧ hasIn = true ∧ hasOut = true ∧ hasOutput = true ∧
        (process_video env source inTs outTs output).1 = .ok true)) := by
  refine ⟨?_, ?_, ?_⟩
  · match doc with
    | none => simp [process_batch, batchReturn, traceSuccesses]
    | some j =>
      unfold process_batch
      dsimp only
      split
      · simp [batchReturn, traceSuccesses]
      · dsimp only [batchReturn]
        rw [batchLoop_fst engine _ 0 0, batchLoop_snd engine _ 0 0]
        simp
  · unfold mainExitBatch
    cases toolOk with
    | false => simp
    | true =>
      cases cfgExists with
      | false => simp
      | true =>
        cases h : batchReturn (process_batch engine doc).1 with
        | false => simp [h]
        | true => simp [h]
  · unfold mainExitSingle
    cases toolOk with
    | false => simp
    | true =>
      cases hasIn with
      | false => simp
      | true =>
        cases hasOut with
        | false => simp
        | true =>
          cases hasOutput with
          | false => simp
          | true =>
            simp only [Bool.not_true, Bool.false_eq_true, if_false, true_and]
            split
            · next hres => simp [hres]
            · next hres => simp [hres]
            · next hres => simp [hres]

/-- C7: the document is normalized per exactly three accepted shapes
(array as-is; a single object with all four required fields as one job;
otherwise an object contributes its job-shaped values), every other JSON
value normalizes to nothing, and process_batch fails with NoValidConfigs,
processing nothing, exactly when the normalized list is empty — in
particular on the empty array and the empty object; a single object with
all four required fields normalizes to exactly that one job. -/
theorem batch_normalization_spec
    (engine : JValue → JValue → JValue → JValue → Except Unit Bool)
    (doc : JValue) :
    (process_batch engine (some (.arr [])) = (.noValidConfigs, []) ∧
      process_batch engine (some (.obj [])) = (.noValidConfigs, [])) ∧
    ((process_batch engine (some doc)).1 = .noValidConfigs ↔ normalizeConfig doc = []) ∧
    ((process_batch engine (some doc)).1 = .noValidConfigs →
      (process_batch engine (some doc)).2 = []) ∧
    (normalizeConfig .null = [] ∧ (∀ b, normalizeConfig (.bool b) = []) ∧
      (∀ n, normalizeConfig (.num n) = []) ∧ (∀ s, normalizeConfig (.str s) = [])) ∧
    (∀ kvs, requiredKeys.all (objHasKey kvs) = true →
      normalizeConfig (.obj kvs) = [.obj kvs]) := by
  refine ⟨⟨rfl, rfl⟩, ?_, ?_, ⟨rfl, fun b => rfl, fun n => rfl, fun s => rfl⟩, ?_⟩
  · unfold process_batch
    dsimp only
    split
    · next h => simpa using h
    · next h =>
      constructor
      · intro hc; cases hc
      · intro hc; rw [hc] at h; simp at h
  · unfold process_batch
    dsimp only
    split
    · intro _; rfl
    · intro hc; cases hc
  · intro kvs hall
    simp [normalizeConfig, hall]

/-- C7 witness: the empty array yields NoValidConfigs, and the spec's
single-object document with all four fields normalizes to exactly one
job. -/
theorem batch_normalization_spec_witness :
    process_batch engT (some (.arr [])) = (.noValidConfigs, []) ∧
    normalizeConfig goodJob = [goodJob] :=
  ⟨(batch_normalization_spec engT (.arr [])).1.1,
   (batch_normalization_spec engT (.arr [])).2.2.2.2 goodJobKvs (by decide)⟩

/-- C8: the loop emits exactly one event per candidate (so later
candidates always run), a candidate missing required keys is skipped
with exactly its missing keys logged and without consulting the engine
(its event is the same for every engine), and an engine error on a
well-formed candidate is caught and logged as a job error carrying the
candidate index. -/
theorem batch_skip_and_continue
    (engine engine2 : JValue → JValue → JValue → JValue → Except Unit Bool)
    (i cnt : Nat) (cs : List JValue)
    (kvs : List (List Char × JValue)) (j : Nat) (c : JValue) :
    ((batchLoop engine i cnt cs).2 = batchTrace engine i cs) ∧
    ((batchTrace engine i cs).length = cs.length) ∧
    (requiredKeys.filter (fun k => !objHasKey kvs k) ≠ [] →
      (batchStep engine j (.obj kvs) =
        .skipped j (requiredKeys.filter (fun k => !objHasKey kvs k)) ∧
       batchStep engine j (.obj kvs) = batchStep engine2 j (.obj kvs))) ∧
    (∀ vS vI vO vP,
      checkAllKeys c requiredKeys = .ok true →
      jGet c (("source").toList) = .ok vS → jGet c (("in").toList) = .ok vI →
      jGet c (("out").toList) = .ok vO → jGet c (("output").toList) = .ok vP →
      engine vS vI vO vP = .error () →
      batchStep engine j c = .jobError j) := by
  refine ⟨batchLoop_snd engine cs i cnt, batchTrace_length engine cs i, ?_, ?_⟩
  · intro hne
    cases hall : requiredKeys.all (objHasKey kvs) with
    | true =>
      exfalso
      apply hne
      rw [List.filter_eq_nil_iff]
      intro k hk
      rw [List.all_eq_true] at hall
      simp [hall k hk]
    | false =>
      have hstep : ∀ e : JValue → JValue → JValue → JValue → Except Unit Bool,
          batchStep e j (.obj kvs) =
            .skipped j (requiredKeys.filter (fun k => !objHasKey kvs k)) := by
        intro e
        unfold batchStep
        rw [checkAllKeys_obj kvs requiredKeys, hall,
          missingKeysE_obj kvs requiredKeys]
      exact ⟨hstep engine, (hstep engine).trans (hstep engine2).symm⟩
  · intro vS vI vO vP hchk hs hi ho hp heng
    unfold batchStep
    rw [hchk, hs, hi, ho, hp]
    simp [heng]

/-- C8 witness: the spec's example — a job missing the out field is
skipped with a message naming exactly out, and a two-candidate batch
still produces one event per candidate. -/
theorem batch_skip_and_continue_witness :
    batchStep engT 1 jobMissingOut = .skipped 1 [("out").toList] ∧
    (batchTrace engT 0 [goodJob, jobMissingOut]).length = 2 := by
  have h := batch_skip_and_continue engT engT 0 0 [goodJob, jobMissingOut]
    jobMissingOutKvs 1 goodJob
  refine ⟨(h.2.2.1 (by decide)).1.trans (by decide), h.2.1.trans (by decide)⟩

/-- C10: in the map-of-objects shape (an object lacking some required
field at top level), normalization keeps only values that are objects
with all four required fields — entries that are not, including
non-objects, are dropped with no event and no contribution to the
candidate count — so the per-candidate missing-field skip can never fire
for a candidate that came from an object-shaped document: a skip event
implies the document was an array. -/
theorem batch_map_shape_silent_drop
    (engine engine2 : JValue → JValue → JValue → JValue → Except Unit Bool)
    (kvs : List (List Char × JValue)) (doc : JValue)
    (i j : Nat) (M : List (List Char)) (c : JValue) :
    (requiredKeys.all (objHasKey kvs) = false →
      ((∀ c2 ∈ normalizeConfig (.obj kvs),
          ∃ kvs2, c2 = .obj kvs2 ∧ requiredKeys.all (objHasKey kvs2) = true) ∧
        (normalizeConfig (.obj kvs)).length ≤ kvs.length)) ∧
    (c ∈ normalizeConfig (.obj kvs) → requiredKeys.all (objHasKey kvs) = false →
      batchStep engine2 j c ≠ .skipped i M) ∧
    (BEvent.skipped i M ∈ (process_batch engine (some doc)).2 →
      ∃ xs, doc = .arr xs) := by
  have hshape : ∀ (kvs0 : List (List Char × JValue)),
      requiredKeys.all (objHasKey kvs0) = false →
      ∀ c2 ∈ normalizeConfig (.obj kvs0),
        ∃ kvs2, c2 = .obj kvs2 ∧ requiredKeys.all (objHasKey kvs2) = true := by
    intro kvs0 hall c2 hc2
    simp only [normalizeConfig, hall, Bool.false_eq_true, if_false,
      List.mem_filterMap] at hc2
    obtain ⟨kv, -, hkv⟩ := hc2
    cases hv : kv.2 with
    | obj kvs2 =>
      simp only [hv] at hkv
      split at hkv
      · next hall2 =>
        cases hkv
        exact ⟨kvs2, rfl, hall2⟩
      · cases hkv
    | null => simp [hv] at hkv
    | bool b => simp [hv] at hkv
    | num n => simp [hv] at hkv
    | str s => simp [hv] at hkv
    | arr xs => simp [hv] at hkv
  refine ⟨?_, ?_, ?_⟩
  · intro hall
    refine ⟨hshape kvs hall, ?_⟩
    simp only [normalizeConfig, hall, Bool.false_eq_true, if_false]
    exact List.length_filterMap_le _ _
  · intro hc hall
    obtain ⟨kvs2, rfl, hall2⟩ := hshape kvs hall c hc
    exact batchStep_ne_skipped_of_all engine2 j kvs2 hall2 i M
  · intro hmem
    unfold process_batch at hmem
    dsimp only at hmem
    split at hmem
    · cases hmem
    · next hne =>
      rw [batchLoop_snd engine _ 0 0] at hmem
      obtain ⟨j2, c2, hc2, he⟩ := batchTrace_mem engine _ 0 _ hmem
      have hfalse := batchStep_skipped_checkAllKeys engine j2 c2 i M he.symm
      rcases doc with _ | _ | _ | _ | xs | kvs0
      · cases hc2
      · cases hc2
      · cases hc2
      · cases hc2
      · exact ⟨xs, rfl⟩
      · exfalso
        cases hall0 : requiredKeys.all (objHasKey kvs0) with
        | true =>
          simp only [normalizeConfig, hall0, if_true, List.mem_singleton] at hc2
          subst hc2
          rw [checkAllKeys_obj kvs0 requiredKeys, hall0] at hfalse
          cases hfalse
        | false =>
          obtain ⟨kvs2, rfl, hall2⟩ := hshape kvs0 hall0 c2 hc2
          rw [checkAllKeys_obj kvs2 requiredKeys, hall2] at hfalse
          cases hfalse

/-- C10 witness: the map-of-objects document with one complete job, one
incomplete job and one non-object entry normalizes to just the complete
job, whose event is never a missing-field skip. -/
theorem batch_map_shape_silent_drop_witness :
    (normalizeConfig mapDoc).length ≤ mapDocKvs.length ∧
    batchStep engT 0 goodJob ≠ .skipped 0 [("out").toList] := by
  have h := batch_map_shape_silent_drop engT engT mapDocKvs mapDoc 0 0
    [("out").toList] goodJob
  have hmem : goodJob ∈ normalizeConfig mapDoc := by
    rw [show normalizeConfig mapDoc = [goodJob] from rfl]
    exact List.mem_singleton.mpr rfl
  exact ⟨(h.1 (by decide)).2, h.2.1 hmem (by decide)⟩

/-- C2 (code bug): main's availability probe honours --ffmpeg-path, but
the Processing Engine does not receive it — both its own probe and the
trim command use the hard-coded literal command name, so with
--ffmpeg-path /opt/bin/ffmpeg the engine still invokes a command that is
not the supplied path. The trace below is exact: the only subprocess
argvs process_video produces begin with the literal name. -/
theorem ffmpeg_path_ignored_by_engine :
    mainProbeArgv (some (("/opt/bin/ffmpeg").toList)) =
      [("/opt/bin/ffmpeg").toList, ("-version").toList] ∧
    (process_video env0 (("v.mp4").toList) (("000000").toList)
        (("000010").toList) (("o.mp4").toList)).2 =
      [.ran probeArgv (.exit 0),
       .ran (trimCmd (("v.mp4").toList) 0 10 (("o.mp4").toList)) (.exit 0)] ∧
    probeArgv = [("ffmpeg").toList, ("-version").toList] ∧
    (trimCmd (("v.mp4").toList) 0 10 (("o.mp4").toList)).head? =
      some (("ffmpeg").toList) ∧
    ("ffmpeg").toList ≠ ("/opt/bin/ffmpeg").toList := by
  refine ⟨rfl, ?_, rfl, rfl, by decide⟩
  rfl

/-- C4 counterexample: when the trim subprocess fails to launch, the
fallback binding is available and would succeed, yet process_video does
not retry and does not return a boolean — the launch failure is an
OSError that the except clause for SubprocessError does not catch, so the
call raises instead of returning true. -/
theorem process_video_launch_failure_not_retried :
    (process_video envLF (("v.mp4").toList) (("000000").toList)
        (("000010").toList) (("o.mp4").toList)).1 = .error .execLaunch ∧
    envLF.havePython = true ∧ envLF.pyProbeOk (("v.mp4").toList) = true ∧
    envLF.pyRunOk = true ∧
    (∀ e ∈ (process_video envLF (("v.mp4").toList) (("000000").toList)
        (("000010").toList) (("o.mp4").toList)).2,
      ∀ src ss t copy ow out, e ≠ .pyRun src ss t copy ow out) := by
  refine ⟨rfl, rfl, rfl, rfl, ?_⟩
  intro e he src ss t copy ow out
  have htr : (process_video envLF (("v.mp4").toList) (("000000").toList)
      (("000010").toList) (("o.mp4").toList)).2 =
      [.ran probeArgv (.exit 0),
       .ran (trimCmd (("v.mp4").toList) 0 10 (("o.mp4").toList)) .launchFail] := rfl
  rw [htr] at he
  rcases List.mem_cons.mp he with rfl | he
  · intro hc; cases hc
  · rcases List.mem_cons.mp he with rfl | he
    · intro hc; cases hc
    · cases he

/-- C4 (amended): when the external trim command exits nonzero (a
SubprocessError, which is caught) and the binding is available, the same
operation — same source, same seek offset, same duration, stream copy,
overwrite, same output path — is retried through the binding, and
process_video returns true iff that retry (probe then run) succeeds; a
launch failure, by contrast, propagates as an uncaught exception. -/
theorem process_video_fallback_on_nonzero_exit (env : Env)
    (source inTs outTs output : List Char) (a b : Nat)
    (hsrc : env.pathExists source = true)
    (hin : parse_timestamp inTs = .ok a) (hout : parse_timestamp outTs = .ok b)
    (hab : a < b)
    (hdir : env.pathExists (pyDirname (format_output_filename env.isdir env.now1
      env.now2 output source)) = true)
    (hprobe : env.run probeArgv = .exit 0) :
    (∀ code, env.run (trimCmd source (a : Int) ((b : Int) - (a : Int))
        (format_output_filename env.isdir env.now1 env.now2 output source)) =
          .exit code →
      code ≠ 0 → env.havePython = true →
      ((process_video env source inTs outTs output).1 =
        .ok (env.pyProbeOk source && env.pyRunOk) ∧
       (env.pyProbeOk source = true →
        PEvent.pyRun source (a : Int) ((b : Int) - (a : Int)) true true
            (format_output_filename env.isdir env.now1 env.now2 output source) ∈
          (process_video env source inTs outTs output).2))) ∧
    (env.run (trimCmd source (a : Int) ((b : Int) - (a : Int))
        (format_output_filename env.isdir env.now1 env.now2 output source)) =
          .launchFail →
      (process_video env source inTs outTs output).1 = .error .execLaunch) := by
  have hred : process_video env source inTs outTs output =
      processVideoRun env source output a b := by
    unfold process_video
    rw [hsrc, hin, hout]
    simp only [Bool.true_eq_false, if_false]
    rw [if_neg (by omega)]
  have hmk : (!(pyDirname (format_output_filename env.isdir env.now1 env.now2
      output source)).isEmpty &&
      !env.pathExists (pyDirname (format_output_filename env.isdir env.now1
        env.now2 output source))) = false := by
    rw [hdir]
    simp
  constructor
  · intro code hrun hcode hpy
    rw [hred]
    unfold processVideoRun
    dsimp only
    rw [hmk, hprobe]
    simp only [Bool.false_and, Bool.false_eq_true, if_false, beq_self_eq_true,
      Bool.not_true, hpy, Bool.and_false, hdir, Bool.true_or, Bool.and_true,
      if_true, hrun]
    rw [if_neg hcode]
    unfold pythonFallback
    rw [hpy]
    simp only [if_true]
    cases hpr : env.pyProbeOk source with
    | false =>
      simp
    | true =>
      simp only [if_true, Bool.true_and]
      refine ⟨by cases env.pyRunOk <;> rfl, fun _ => ?_⟩
      apply List.mem_append_right
      exact List.mem_cons_of_mem _ (List.mem_cons_self _ _)
  · intro hrun
    rw [hred]
    unfold processVideoRun
    dsimp only
    rw [hmk, hprobe]
    simp only [Bool.false_and, Bool.false_eq_true, if_false, beq_self_eq_true,
      Bool.not_true, hdir, Bool.and_false, Bool.true_or, Bool.and_true,
      if_true, hrun]

/-- C4 witness: with a probe that succeeds and a trim subprocess exiting
1, the operation is retried through the binding with the same seek,
duration and output, and process_video returns true. -/
theorem process_video_fallback_on_nonzero_exit_witness :
    (process_video envW (("v.mp4").toList) (("000000").toList)
        (("000010").toList) (("o.mp4").toList)).1 = .ok true ∧
    PEvent.pyRun (("v.mp4").toList) 0 10 true true (("o.mp4").toList) ∈
      (process_video envW (("v.mp4").toList) (("000000").toList)
        (("000010").toList) (("o.mp4").toList)).2 := by
  have h := (process_video_fallback_on_nonzero_exit envW (("v.mp4").toList)
    (("000000").toList) (("000010").toList) (("o.mp4").toList) 0 10 rfl rfl rfl
    (by decide) rfl rfl).1 1 (by decide) (by decide) rfl
  exact ⟨h.1, h.2 rfl⟩

/-- Decomposition of an infix occurrence across an append: the occurrence
lies in the left part, lies in the right part, or spans the boundary with
a nonempty suffix-piece of the left part and a nonempty prefix-piece of
the right part. -/
theorem infixAppendCases {tok a b : List Char} (h : tok <:+: a ++ b) :
    tok <:+: a ∨ tok <:+: b ∨
      ∃ u v, tok = u ++ v ∧ u ≠ [] ∧ v ≠ [] ∧ u <:+ a ∧ v <+: b := by
  obtain ⟨l, r, hlr⟩ := h
  by_cases h1 : l.length + tok.length ≤ a.length
  · left
    refine ⟨l, r.take (a.length - (l.length + tok.length)), ?_⟩
    have hthis : a = ((l ++ tok) ++ r).take a.length := by
      rw [hlr, List.take_left]
    rw [List.take_append_eq_append_take, List.take_append_eq_append_take] at hthis
    simp only [List.length_append] at hthis
    rw [List.take_of_length_le (by omega), List.take_of_length_le (by omega)] at hthis
    exact hthis.symm
  · by_cases h2 : a.length ≤ l.length
    · right; left
      refine ⟨l.drop a.length, r, ?_⟩
      have hthis : b = ((l ++ tok) ++ r).drop a.length := by
        rw [hlr, List.drop_left]
      rw [List.drop_append_eq_append_drop, List.drop_append_eq_append_drop] at hthis
      simp only [List.length_append] at hthis
      have e1 : a.length - l.length = 0 := by omega
      have e2 : a.length - (l.length + tok.length) = 0 := by omega
      rw [e1, e2, List.drop_zero, List.drop_zero] at hthis
      exact hthis.symm
    · right; right
      push_neg at h1 h2
      refine ⟨tok.take (a.length - l.length), tok.drop (a.length - l.length),
        (List.take_append_drop _ _).symm, ?_, ?_, ?_, ?_⟩
      · have hl : (tok.take (a.length - l.length)).length = a.length - l.length := by
          rw [List.length_take]; omega
        intro hc
        rw [hc] at hl
        simp at hl
        omega
      · have hl : (tok.drop (a.length - l.length)).length =
            tok.length - (a.length - l.length) := List.length_drop _ _
        intro hc
        rw [hc] at hl
        simp at hl
        omega
      · refine ⟨l, ?_⟩
        have hthis : a = ((l ++ tok) ++ r).take a.length := by
          rw [hlr, List.take_left]
        rw [List.take_append_eq_append_take, List.take_append_eq_append_take] at hthis
        simp only [List.length_append] at hthis
        rw [List.take_of_length_le (le_of_lt h2)] at hthis
        have e2 : a.length - (l.length + tok.length) = 0 := by omega
        rw [e2, List.take_zero, List.append_nil] at hthis
        exact hthis.symm
      · refine ⟨r, ?_⟩
        have hthis : b = ((l ++ tok) ++ r).drop a.length := by
          rw [hlr, List.drop_left]
        rw [List.drop_append_eq_append_drop, List.drop_append_eq_append_drop] at hthis
        simp only [List.length_append] at hthis
        rw [List.drop_of_length_le (le_of_lt h2)] at hthis
        have e2 : a.length - (l.length + tok.length) = 0 := by omega
        rw [e2, List.drop_zero, List.nil_append] at hthis
        exact hthis.symm

/-- If a nonempty token avoiding a boundary character occurs in an append
around that character, it occurs on one side. -/
theorem infix_append_char {tok a b : List Char} {c : Char}
    (htok : tok ≠ []) (hc : c ∉ tok) (h : tok <:+: a ++ c :: b) :
    tok <:+: a ∨ tok <:+: b := by
  rcases infixAppendCases h with h | h | ⟨u, v, htk, hu, hv, hsu, hpv⟩
  · exact Or.inl h
  · rcases List.infix_cons_iff.mp h with h | h
    · exfalso
      cases tok with
      | nil => exact htok rfl
      | cons t0 ts =>
        obtain ⟨rfl, -⟩ := List.cons_prefix_cons.mp h
        exact hc (List.mem_cons_self _ _)
    · exact Or.inr h
  · exfalso
    cases v with
    | nil => exact hv rfl
    | cons v0 vs =>
      obtain ⟨rfl, -⟩ := List.cons_prefix_cons.mp hpv
      exact hc (htk ▸ List.mem_append_right u (List.mem_cons_self _ _))

/-- A nonempty token whose characters all avoid a string cannot occur in
it. -/
theorem not_infix_of_disjoint {tok s : List Char} (htok : tok ≠ [])
    (hd : ∀ c ∈ s, c ∉ tok) : ¬ tok <:+: s := by
  intro h
  obtain ⟨c, hc⟩ := List.exists_mem_of_ne_nil tok htok
  exact hd c (h.subset hc) hc

/-- A token avoiding a character passes over a replicate of it. -/
theorem infix_replicate_append {tok rest : List Char} {c : Char}
    (htok : tok ≠ []) (hc : c ∉ tok) :
    ∀ n, tok <:+: List.replicate n c ++ rest → tok <:+: rest
  | 0, h => by simpa using h
  | n + 1, h => by
    rw [List.replicate_succ, List.cons_append] at h
    rcases List.infix_cons_iff.mp h with h | h
    · exfalso
      cases tok with
      | nil => exact htok rfl
      | cons t0 ts =>
        obtain ⟨rfl, -⟩ := List.cons_prefix_cons.mp h
        exact hc (List.mem_cons_self _ _)
    · exact infix_replicate_append htok hc n h

/-- A token avoiding the separator occurs in a join only by occurring in
one of the pieces. -/
theorem intercal_infix {tok : List Char} {c : Char}
    (htok : tok ≠ []) (hc : c ∉ tok) :
    ∀ l : List (List Char), tok <:+: intercal c l → ∃ x ∈ l, tok <:+: x
  | [], h => by
    rw [show intercal c [] = [] from rfl, List.infix_nil] at h
    exact absurd h htok
  | [x], h => ⟨x, List.mem_singleton.mpr rfl, h⟩
  | x :: y :: t, h => by
    rw [show intercal c (x :: y :: t) = x ++ c :: intercal c (y :: t) from rfl] at h
    rcases infix_append_char htok hc h with h | h
    · exact ⟨x, List.mem_cons_self _ _, h⟩
    · obtain ⟨x2, hx2, hinf⟩ := intercal_infix htok hc (y :: t) h
      exact ⟨x2, List.mem_cons_of_mem _ hx2, hinf⟩

/-- A nonempty token inside a singleton string is that string. -/
theorem infix_singleton_eq {tok : List Char} {c : Char} (htok : tok ≠ [])
    (h : tok <:+: [c]) : tok = [c] := by
  obtain ⟨s, t, hst⟩ := h
  have hlen := congrArg List.length hst
  simp only [List.length_append, List.length_cons, List.length_nil] at hlen
  have hpos : 0 < tok.length := List.length_pos.mpr htok
  have hs : s = [] := List.eq_nil_of_length_eq_zero (by omega)
  have ht : t = [] := List.eq_nil_of_length_eq_zero (by omega)
  subst hs; subst ht
  simpa using hst

/-- Structure of a split: it is nonempty, its head is a prefix of the
input, and every later piece is an infix of the input. -/
theorem pySplit_structure (sep : Char) :
    ∀ p : List Char, ∃ h t, pySplit sep p = h :: t ∧ h <+: p ∧ ∀ x ∈ t, x <:+: p
  | [] => ⟨[], [], rfl, List.nil_prefix, by intro x hx; cases hx⟩
  | c :: cs => by
    obtain ⟨h, t, heq, hpre, hinf⟩ := pySplit_structure sep cs
    by_cases hc : c = sep
    · refine ⟨[], pySplit sep cs, by simp [pySplit, hc], List.nil_prefix, ?_⟩
      intro x hx
      rw [heq] at hx
      rcases List.mem_cons.mp hx with rfl | hx
      · exact hpre.isInfix.trans (List.suffix_cons c cs).isInfix
      · exact (hinf x hx).trans (List.suffix_cons c cs).isInfix
    · refine ⟨c :: h, t, by simp [pySplit, hc, heq], ?_, ?_⟩
      · exact List.cons_prefix_cons.mpr ⟨rfl, hpre⟩
      · intro x hx
        exact (hinf x hx).trans (List.suffix_cons c cs).isInfix

/-- Every piece of a split is an infix of the input. -/
theorem pySplit_mem_occurs {sep : Char} {p x : List Char}
    (hx : x ∈ pySplit sep p) : x <:+: p := by
  obtain ⟨h, t, heq, hpre, hinf⟩ := pySplit_structure sep p
  rw [heq] at hx
  rcases List.mem_cons.mp hx with rfl | hx
  · exact hpre.isInfix
  · exact hinf x hx

/-- No piece of a split contains the separator. -/
theorem pySplit_sep_free (sep : Char) :
    ∀ (p : List Char) {x : List Char}, x ∈ pySplit sep p → sep ∉ x
  | [], x, hx => by
    rcases List.mem_singleton.mp hx with rfl
    simp
  | c :: cs, x, hx => by
    by_cases hc : c = sep
    · rw [show pySplit sep (c :: cs) = [] :: pySplit sep cs from by
        simp [pySplit, hc]] at hx
      rcases List.mem_cons.mp hx with rfl | hx
      · simp
      · exact pySplit_sep_free sep cs hx
    · obtain ⟨h, t, heq, -, -⟩ := pySplit_structure sep cs
      rw [show pySplit sep (c :: cs) = (c :: h) :: t from by
        simp [pySplit, hc, heq]] at hx
      rcases List.mem_cons.mp hx with rfl | hx
      · intro hmem
        rcases List.mem_cons.mp hmem with heq2 | hmem
        · exact hc heq2.symm
        · exact pySplit_sep_free sep cs (heq ▸ List.mem_cons_self h t) hmem
      · exact pySplit_sep_free sep cs (heq ▸ List.mem_cons_of_mem h hx)

/-- The default-carrying last element of a nonempty list is an element. -/
theorem getLastD_mem : ∀ (l : List (List Char)) (d : List Char), l ≠ [] → l.getLastD d ∈ l
  | [], _, h => absurd rfl h
  | [x], d, _ => by simp [List.getLastD]
  | x :: y :: t, d, _ => by
    rw [show (x :: y :: t).getLastD d = (y :: t).getLastD x from rfl]
    exact List.mem_cons_of_mem x (getLastD_mem (y :: t) x (by simp))

/-- The basename of a path occurs in the path. -/
theorem pyBasename_occurs (p : List Char) : pyBasename p <:+: p := by
  obtain ⟨h, t, heq, -, -⟩ := pySplit_structure '/' p
  exact pySplit_mem_occurs (getLastD_mem _ [] (by rw [heq]; simp))

/-- The basename of a path contains no separator. -/
theorem pyBasename_sep_free (p : List Char) : '/' ∉ pyBasename p := by
  obtain ⟨h, t, heq, -, -⟩ := pySplit_structure '/' p
  exact pySplit_sep_free '/' p (getLastD_mem _ [] (by rw [heq]; simp))

/-- The normpath component step only keeps pieces of its inputs. -/
theorem npStep_mem {n : Nat} {acc : List (List Char)} {comp x : List Char}
    (h : x ∈ npStep n acc comp) : x ∈ acc ∨ x = comp := by
  unfold npStep at h
  split at h
  · exact Or.inl h
  · split at h
    · rcases List.mem_append.mp h with h | h
      · exact Or.inl h
      · exact Or.inr (List.mem_singleton.mp h)
    · exact Or.inl ((List.dropLast_sublist _).subset h)

/-- The normpath component loop only keeps components of its input. -/
theorem foldl_npStep_mem {n : Nat} :
    ∀ (l acc : List (List Char)) (x : List Char),
      x ∈ l.foldl (npStep n) acc → x ∈ acc ∨ x ∈ l
  | [], _, _, h => Or.inl h
  | c :: cs, acc, x, h => by
    rcases foldl_npStep_mem cs (npStep n acc c) x h with h | h
    · rcases npStep_mem h with h | rfl
      · exact Or.inl h
      · exact Or.inr (List.mem_cons_self _ _)
    · exact Or.inr (List.mem_cons_of_mem _ h)

/-- normpath creates no new occurrence of a separator-free token other
than the single-dot path. -/
theorem normpath_no_token {tok : List Char} (htok : tok ≠ []) (hsep : '/' ∉ tok)
    (hdot : tok ≠ ['.']) {p : List Char} (hp : ¬ tok <:+: p) :
    ¬ tok <:+: normpath p := by
  intro h
  unfold normpath at h
  split at h
  · exact hdot (infix_singleton_eq htok h)
  · unfold normpathCore at h
    dsimp only at h
    split at h
    · exact hdot (infix_singleton_eq htok h)
    · have h2 := infix_replicate_append htok hsep _ h
      obtain ⟨x, hx, hinf⟩ := intercal_infix htok hsep _ h2
      rcases foldl_npStep_mem _ _ x hx with hx | hx
      · cases hx
      · exact hp (hinf.trans (pySplit_mem_occurs hx))

/-- A prefix of a replacement result whose characters all lie in the
token (and hence avoid the replacement text) is a prefix of the input. -/
theorem replaceAllFuel_prefix_transfer {tok rep : List Char}
    (hrep : rep ≠ []) (hdisj : ∀ c ∈ rep, c ∉ tok) :
    ∀ (f : Nat) (s p : List Char), s.length ≤ f → (∀ c ∈ p, c ∈ tok) →
      p <+: replaceAllFuel f tok rep s → p <+: s
  | 0, s, p, _, _, hpre => hpre
  | f + 1, [], p, _, _, hpre => by
    rw [show replaceAllFuel (f + 1) tok rep [] = [] from rfl] at hpre
    exact hpre
  | f + 1, c :: cs, p, hlen, hchars, hpre => by
    rw [show replaceAllFuel (f + 1) tok rep (c :: cs) =
        if tok ≠ [] ∧ tok.isPrefixOf (c :: cs) then
          rep ++ replaceAllFuel f tok rep ((c :: cs).drop tok.length)
        else c :: replaceAllFuel f tok rep cs from rfl] at hpre
    split at hpre
    · cases p with
      | nil => exact List.nil_prefix
      | cons p0 ps =>
        exfalso
        cases rep with
        | nil => exact hrep rfl
        | cons r0 rs =>
          obtain ⟨rfl, -⟩ := List.cons_prefix_cons.mp hpre
          exact hdisj p0 (List.mem_cons_self _ _) (hchars p0 (List.mem_cons_self _ _))
    · cases p with
      | nil => exact List.nil_prefix
      | cons p0 ps =>
        obtain ⟨rfl, hps⟩ := List.cons_prefix_cons.mp hpre
        refine List.cons_prefix_cons.mpr ⟨rfl, ?_⟩
        refine replaceAllFuel_prefix_transfer hrep hdisj f cs ps ?_ ?_ hps
        · simpa using hlen
        · intro c2 hc2
          exact hchars c2 (List.mem_cons_of_mem _ hc2)

/-- The central replacement property: after replacing every occurrence of
a nonempty token by a replacement sharing no character with it, the token
does not occur in the result. -/
theorem replaceAllFuel_no_infix {tok rep : List Char} (htok : tok ≠ [])
    (hrep : rep ≠ []) (hdisj : ∀ c ∈ rep, c ∉ tok) :
    ∀ (f : Nat) (s : List Char), s.length ≤ f →
      ¬ tok <:+: replaceAllFuel f tok rep s
  | 0, s, hlen => by
    have hs : s = [] := List.eq_nil_of_length_eq_zero (by omega)
    subst hs
    rw [show replaceAllFuel 0 tok rep [] = [] from rfl, List.infix_nil]
    exact htok
  | f + 1, [], _ => by
    rw [show replaceAllFuel (f + 1) tok rep [] = [] from rfl, List.infix_nil]
    exact htok
  | f + 1, c :: cs, hlen => by
    rw [show replaceAllFuel (f + 1) tok rep (c :: cs) =
        if tok ≠ [] ∧ tok.isPrefixOf (c :: cs) then
          rep ++ replaceAllFuel f tok rep ((c :: cs).drop tok.length)
        else c :: replaceAllFuel f tok rep cs from rfl]
    split
    · next hcond =>
      intro h
      rcases infixAppendCases h with h | h | ⟨u, v, htk, hu, hv, hsu, hpv⟩
      · obtain ⟨c2, hc2⟩ := List.exists_mem_of_ne_nil tok htok
        exact hdisj c2 (h.subset hc2) hc2
      · refine replaceAllFuel_no_infix htok hrep hdisj f _ ?_ h
        have h1 : 0 < tok.length := List.length_pos.mpr htok
        rw [List.length_drop]
        simp only [List.length_cons] at hlen ⊢
        omega
      · obtain ⟨c2, hc2⟩ := List.exists_mem_of_ne_nil u hu
        have hc2rep : c2 ∈ rep := hsu.subset hc2
        have hc2tok : c2 ∈ tok := htk ▸ List.mem_append_left v hc2
        exact hdisj c2 hc2rep hc2tok
    · next hcond =>
      intro h
      rcases List.infix_cons_iff.mp h with h | h
      · cases tok with
        | nil => exact htok rfl
        | cons t0 ts =>
          obtain ⟨rfl, hts⟩ := List.cons_prefix_cons.mp h
          have hts2 : ts <+: cs := by
            refine replaceAllFuel_prefix_transfer hrep hdisj f cs ts ?_ ?_ hts
            · simpa using hlen
            · intro c2 hc2
              exact List.mem_cons_of_mem _ hc2
          apply hcond
          refine ⟨by simp, ?_⟩
          rw [List.isPrefixOf_iff_prefix]
          exact List.cons_prefix_cons.mpr ⟨rfl, hts2⟩
      · exact replaceAllFuel_no_infix htok hrep hdisj f cs (by simpa using hlen) h

/-- Instance of the replacement property for the program's replace
call. -/
theorem replaceAll_no_infix {tok rep s : List Char} (htok : tok ≠ [])
    (hrep : rep ≠ []) (hdisj : ∀ c ∈ rep, c ∉ tok) :
    ¬ tok <:+: replaceAll tok rep s :=
  replaceAllFuel_no_infix htok hrep hdisj s.length s le_rfl

/-- The Boolean substring test agrees with the infix relation. -/
theorem containsSub_iff {pat s : List Char} : containsSub pat s = true ↔ pat <:+: s := by
  induction s with
  | nil =>
    constructor
    · intro h
      rw [show containsSub pat [] = pat.isEmpty from rfl, List.isEmpty_iff] at h
      rw [h]
    · intro h
      rw [List.infix_nil] at h
      rw [h]
      rfl
  | cons c cs ih =>
    rw [show containsSub pat (c :: cs) =
      (pat.isPrefixOf (c :: cs) || containsSub pat cs) from rfl]
    rw [Bool.or_eq_true, List.isPrefixOf_iff_prefix, ih, List.infix_cons_iff]

/-- Decimal digit characters lie in the allowed set. -/
theorem digitChar_mem_allowed : ∀ n : Nat, n < 10 → Nat.digitChar n ∈ tsAllowed := by
  decide

/-- Characters of a width-2 field are allowed. -/
theorem pad2_chars (n : Nat) : ∀ c ∈ pad2 n, c ∈ tsAllowed := by
  intro c hc
  simp only [pad2, List.mem_cons, List.not_mem_nil, or_false] at hc
  rcases hc with rfl | rfl <;>
    exact digitChar_mem_allowed _ (Nat.mod_lt _ (by norm_num))

/-- Characters of the width-4 field are allowed. -/
theorem pad4_chars (n : Nat) : ∀ c ∈ pad4 n, c ∈ tsAllowed := by
  intro c hc
  simp only [pad4, List.mem_cons, List.not_mem_nil, or_false] at hc
  rcases hc with rfl | rfl | rfl | rfl <;>
    exact digitChar_mem_allowed _ (Nat.mod_lt _ (by norm_num))

/-- Characters of the width-6 field are allowed. -/
theorem pad6_chars (n : Nat) : ∀ c ∈ pad6 n, c ∈ tsAllowed := by
  intro c hc
  simp only [pad6, List.mem_cons, List.not_mem_nil, or_false] at hc
  rcases hc with rfl | rfl | rfl | rfl | rfl | rfl <;>
    exact digitChar_mem_allowed _ (Nat.mod_lt _ (by norm_num))

/-- Every character of the generated timestamp is a digit or the
underscore. -/
theorem tsString_chars {t : PyDateTime} : ∀ c ∈ tsString t, c ∈ tsAllowed := by
  intro c hc
  have hc2 : c ∈ strftimeFull t := List.take_subset _ _ hc
  unfold strftimeFull at hc2
  rcases List.mem_append.mp hc2 with h | h
  · rcases List.mem_append.mp h with h | h
    · rcases List.mem_append.mp h with h | h
      · exact pad4_chars _ c h
      · exact pad2_chars _ c h
    · exact pad2_chars _ c h
  · rcases List.mem_cons.mp h with rfl | h
    · decide
    · rcases List.mem_append.mp h with h | h
      · rcases List.mem_append.mp h with h | h
        · rcases List.mem_append.mp h with h | h
          · exact pad2_chars _ c h
          · exact pad2_chars _ c h
        · exact pad2_chars _ c h
      · exact pad6_chars _ c h

/-- No allowed character occurs in the placeholder token. -/
theorem tsAllowed_not_in_token : ∀ c ∈ tsAllowed, c ∉ tsToken := by decide

/-- The generated timestamp has 19 characters. -/
theorem tsString_length (t : PyDateTime) : (tsString t).length = 19 := by
  unfold tsString strftimeFull pad4 pad2 pad6
  simp

/-- The generated timestamp is the 15-character date-time rendering
followed by the first 4 digits of the microsecond field: both processing
modes carry this sub-second suffix. -/
theorem tsString_eq_noSub_append (t : PyDateTime) :
    tsString t = strftimeNoSub t ++ (pad6 t.microsecond).take 4 := by
  have hsplit : strftimeFull t = strftimeNoSub t ++ pad6 t.microsecond := by
    unfold strftimeFull strftimeNoSub
    simp [List.append_assoc]
  have hlen : (strftimeNoSub t).length = 15 := by
    unfold strftimeNoSub pad4 pad2
    simp
  unfold tsString
  rw [hsplit, List.take_append_eq_append_take, hlen,
    List.take_of_length_le (by omega)]

/-- The substitution phase never leaves the token in the path. -/
theorem resolveSubst_no_token (t1 : PyDateTime) (out : List Char) :
    ¬ tsToken <:+: resolveSubst t1 out := by
  unfold resolveSubst
  dsimp only
  split
  · apply replaceAll_no_infix (by decide)
    · intro hc
      have hl := tsString_length t1
      rw [hc] at hl
      cases hl
    · intro c hc
      exact tsAllowed_not_in_token c (tsString_chars c hc)
  · next hcond =>
    intro h
    apply hcond
    exact containsSub_iff.mpr h

/-- A nonempty suffix contains the last element of the whole list. -/
theorem suffix_getLast_mem {a u : List Char} {c : Char} (hsu : u <:+ a)
    (hu : u ≠ []) (hlast : a.getLast? = some c) : c ∈ u := by
  obtain ⟨w, rfl⟩ := hsu
  rw [List.getLast?_append] at hlast
  cases hu2 : u.getLast? with
  | none => exact absurd (List.getLast?_eq_none_iff.mp hu2) hu
  | some x =>
    rw [hu2] at hlast
    have hxc : some x = some c := hlast
    cases hxc
    exact List.mem_of_getLast?_eq_some hu2

/-- os.path.join introduces no occurrence of the token. -/
theorem pyJoin_no_token {a b : List Char} (ha : ¬ tsToken <:+: a)
    (hb : ¬ tsToken <:+: b) : ¬ tsToken <:+: pyJoin a b := by
  unfold pyJoin
  split
  · exact hb
  · split
    · next hcond =>
      rcases hcond with rfl | hlast
      · simpa using hb
      · intro h
        rcases infixAppendCases h with h | h | ⟨u, v, htk, hu, hv, hsu, hpv⟩
        · exact ha h
        · exact hb h
        · have hc : '/' ∈ u := suffix_getLast_mem hsu hu hlast
          have hmem : '/' ∈ tsToken := htk ▸ List.mem_append_left v hc
          exact absurd hmem (by decide)
    · intro h
      rcases infix_append_char (by decide) (by decide) h with h | h
      · exact ha h
      · exact hb h

/-- Both splitext components avoid the token when the basename does. -/
theorem pySplitext_no_token {b : List Char} (h : ¬ tsToken <:+: b) :
    ¬ tsToken <:+: (pySplitext b).1 ∧ ¬ tsToken <:+: (pySplitext b).2 := by
  have hnil : ¬ tsToken <:+: ([] : List Char) := by
    intro h2
    rw [List.infix_nil] at h2
    exact absurd h2 (by decide)
  cases hio : lastIndexOf '.' b with
  | none =>
    rw [show pySplitext b = (b, []) from by unfold pySplitext; rw [hio]]
    exact ⟨h, hnil⟩
  | some i =>
    by_cases hall : (b.take i).all (fun c => c = '.') = true
    · rw [show pySplitext b = (b, []) from by
        unfold pySplitext; rw [hio]; exact if_pos hall]
      exact ⟨h, hnil⟩
    · rw [show pySplitext b = (b.take i, b.drop i) from by
        unfold pySplitext; rw [hio]; exact if_neg hall]
      exact ⟨fun h2 => h (h2.trans (List.take_prefix _ _).isInfix),
             fun h2 => h (h2.trans (List.drop_suffix _ _).isInfix)⟩

/-- The generated directory-mode filename stem-dash-timestamp-extension
avoids the token when stem and extension do. -/
theorem fname_no_token {stem ext : List Char} (t2 : PyDateTime)
    (hs : ¬ tsToken <:+: stem) (he : ¬ tsToken <:+: ext) :
    ¬ tsToken <:+: stem ++ '-' :: (tsString t2 ++ ext) := by
  have hts : ¬ tsToken <:+: tsString t2 ++ ext := by
    intro h
    rcases infixAppendCases h with h | h | ⟨u, v, htk, hu, hv, hsu, hpv⟩
    · obtain ⟨c, hc⟩ := List.exists_mem_of_ne_nil tsToken (by decide)
      exact tsAllowed_not_in_token c (tsString_chars c (h.subset hc)) hc
    · exact he h
    · obtain ⟨c, hc⟩ := List.exists_mem_of_ne_nil u hu
      have h1 : c ∈ tsString t2 := hsu.subset hc
      have h2 : c ∈ tsToken := htk ▸ List.mem_append_left v hc
      exact tsAllowed_not_in_token c (tsString_chars c h1) h2
  intro h
  rcases infix_append_char (by decide) (by decide) h with h | h
  · exact hs h
  · exact hts h

/-- The resolver's output never contains the token provided the source
path does not itself contain it. -/
theorem format_output_filename_no_token (isdir : List Char → Bool)
    (t1 t2 : PyDateTime) (out src : List Char)
    (hsrc : ¬ tsToken <:+: src) :
    ¬ tsToken <:+: format_output_filename isdir t1 t2 out src := by
  unfold format_output_filename
  dsimp only
  have hbase : ¬ tsToken <:+: pyBasename src :=
    fun h => hsrc (h.trans (pyBasename_occurs src))
  obtain ⟨h1, h2⟩ := pySplitext_no_token hbase
  apply normpath_no_token (by decide) (by decide) (by decide)
  split
  · exact pyJoin_no_token (resolveSubst_no_token t1 out)
      (fname_no_token t2 h1 h2)
  · exact resolveSubst_no_token t1 out

/-- C3 counterexample: with the same resolver serving both modes, a
batch-mode substitution of the placeholder carries sub-second precision —
the result is the 19-character stamp, not the claimed 15-character
YYYYMMDD_HHMMSS value. -/
theorem timestamp_substitution_mode_cex :
    format_output_filename (fun _ => false) t0 t0
        (("/tmp/result_[timestamp].mp4").toList) (("clip.mp4").toList) =
      ("/tmp/result_20260101_1234560000.mp4").toList ∧
    format_output_filename (fun _ => false) t0 t0
        (("/tmp/result_[timestamp].mp4").toList) (("clip.mp4").toList) ≠
      ("/tmp/result_20260101_123456.mp4").toList := by
  constructor
  · rfl
  · intro h
    exact absurd ((rfl :
      format_output_filename (fun _ => false) t0 t0
        (("/tmp/result_[timestamp].mp4").toList) (("clip.mp4").toList) =
      ("/tmp/result_20260101_1234560000.mp4").toList) ▸ h) (by decide)

/-- C3 (amended): the placeholder is substituted identically in both
modes — there is a single resolver — with the current local time in the
form YYYYMMDD_HHMMSS followed by 4 sub-second digits, and, provided the
source path does not itself contain the literal token, no token substring
remains in the result. -/
theorem timestamp_substitution_spec (isdir : List Char → Bool)
    (t1 t2 : PyDateTime) (out src : List Char) :
    (tsString t1 = strftimeNoSub t1 ++ (pad6 t1.microsecond).take 4) ∧
    (containsSub tsToken src = false →
      containsSub tsToken (format_output_filename isdir t1 t2 out src) = false) := by
  refine ⟨tsString_eq_noSub_append t1, ?_⟩
  intro hsrc
  have hs2 : ¬ tsToken <:+: src := by
    intro h
    rw [← containsSub_iff] at h
    rw [hsrc] at h
    cases h
  have := format_output_filename_no_token isdir t1 t2 out src hs2
  cases hc : containsSub tsToken (format_output_filename isdir t1 t2 out src) with
  | false => rfl
  | true => exact absurd (containsSub_iff.mp hc) this

/-- C3 witness: the spec's example pattern with a clean source leaves no
token in the result. -/
theorem timestamp_substitution_spec_witness :
    containsSub tsToken (format_output_filename (fun _ => false) t0 t0
      (("/tmp/result_[timestamp].mp4").toList) (("clip.mp4").toList)) = false :=
  (timestamp_substitution_spec (fun _ => false) t0 t0
    (("/tmp/result_[timestamp].mp4").toList) (("clip.mp4").toList)).2 (by decide)

/-- C9 counterexample: the output pattern of a nonexistent directory with
a trailing separator is not treated as a directory target — the resolver
normalizes first, stripping the trailing slash, and returns the literal
file path with no stem-timestamp filename joined. -/
theorem directory_target_sep_cex :
    format_output_filename (fun _ => false) t0 t0
        (("/tmp/nonexistent/").toList) (("clip.mp4").toList) =
      ("/tmp/nonexistent").toList ∧
    containsSub (("clip").toList)
      (format_output_filename (fun _ => false) t0 t0
        (("/tmp/nonexistent/").toList) (("clip.mp4").toList)) = false := by
  exact ⟨rfl, rfl⟩

/-- C9 (amended): the resolver normalizes the substituted pattern first,
which strips trailing separators, so the directory branch is taken
exactly when the normalized, substituted path is an existing directory or
still ends with a separator (only root-like paths or a trailing backslash
survive normalization); when taken, the result is that directory joined
with stem-timestamp-extension, as in the worked example with the
existing directory. -/
theorem directory_target_resolution (isdir : List Char → Bool)
    (t1 t2 : PyDateTime) (out src : List Char) :
    (dirTarget isdir (resolveSubst t1 out) = true →
      format_output_filename isdir t1 t2 out src =
        normpath (pyJoin (resolveSubst t1 out)
          ((pySplitext (pyBasename src)).1 ++
            '-' :: (tsString t2 ++ (pySplitext (pyBasename src)).2)))) ∧
    (dirTarget isdir (resolveSubst t1 out) = false →
      format_output_filename isdir t1 t2 out src =
        normpath (resolveSubst t1 out)) ∧
    format_output_filename isdirTmpOut t0 t0 (("/tmp/out/").toList)
        (("clip.mp4").toList) =
      ("/tmp/out/clip-20260101_1234560000.mp4").toList := by
  refine ⟨?_, ?_, rfl⟩
  · intro h
    unfold format_output_filename
    dsimp only
    rw [h]
    simp
  · intro h
    unfold format_output_filename
    dsimp only
    rw [h]
    simp

/-- C9 witness: the worked example — an isdir oracle recognising the
existing directory, the pattern with the trailing slash, and the source
clip.mp4 — resolves through the directory branch. -/
theorem directory_target_resolution_witness :
    format_output_filename isdirTmpOut t0 t0 (("/tmp/out/").toList)
        (("clip.mp4").toList) =
      normpath (pyJoin (resolveSubst t0 (("/tmp/out/").toList))
        ((pySplitext (pyBasename (("clip.mp4").toList))).1 ++
          '-' :: (tsString t0 ++
            (pySplitext (pyBasename (("clip.mp4").toList))).2))) :=
  (directory_target_resolution isdirTmpOut t0 t0 (("/tmp/out/").toList)
    (("clip.mp4").toList)).1 (by decide)
